import Mathlib

/-!
# Shallow embedding of `src/xenakis.py` (sndalgo's Xenakis sieve engine)

Conventions of the embedding:
* Python strings are lists of characters; `String` appears only at the
  outermost interface.
* Python's unbounded `int` is `Int`; Python's `%` on integers is floored
  remainder with the divisor's sign, i.e. `Int.fmod` (and `x % 0` raises).
* Code that can raise an exception returns `Option`, with `none` for a raise.
* Mutation is made explicit: `Sieve.__and__` extends a group list that is
  shared (by the shallow copy `m._residuals[:]`) with the receiver, so its
  model returns both the new sieve's groups and the receiver's groups after
  the call.
-/

/-- A parsed residual `(modulus, shift, neg)`, as built by `parse_residual`. -/
abbrev Residual := Int × Int × Bool

/-- The value of `Sieve._residuals` once normalization has succeeded. -/
abbrev SieveV := List (List Residual)

/-- Characters removed by Python's `str.strip()` with no argument. -/
def pySpace (c : Char) : Bool :=
  c = ' ' || c = '\t' || c = '\n' || c = '\r' || c = '\x0b' || c = '\x0c'

/-- Python's `str.strip()`. -/
def pyStrip (cs : List Char) : List Char :=
  ((cs.dropWhile pySpace).reverse.dropWhile pySpace).reverse

/-- `clean_sieve_str` (src/xenakis.py:36-45): strip, then remove every
space and newline. -/
def clean_sieve_str (cs : List Char) : List Char :=
  (pyStrip cs).filter fun c => !(c = ' ' || c = '\n')

/-- Python's `str.split(sep)` for a one-character separator; empty parts are
kept and splitting the empty string yields `[""]`. -/
def splitOnChar (sep : Char) : List Char → List (List Char)
  | [] => [[]]
  | c :: rest =>
    if c = sep then [] :: splitOnChar sep rest
    else
      match splitOnChar sep rest with
      | [] => [[c]]
      | h :: t => (c :: h) :: t

/-- Python's `sep in s` for a one-character needle. -/
def containsChar (x : Char) (cs : List Char) : Bool := cs.any (· = x)

/-- Value of a list of decimal digit characters. -/
def digitsToNat (cs : List Char) : Nat :=
  cs.foldl (fun a c => a * 10 + (c.toNat - '0'.toNat)) 0

/-- Python's `int(str)`: optional surrounding whitespace, an optional sign,
then decimal digits (underscore digit separators are not modelled); any other
input raises `ValueError` (`none`). -/
def pyInt (cs0 : List Char) : Option Int :=
  match pyStrip cs0 with
  | [] => none
  | c :: rest =>
    let sign : Bool := c = '-'
    let body : List Char := if c = '-' || c = '+' then rest else c :: rest
    if !body.isEmpty && body.all Char.isDigit then
      some (if sign then -(digitsToNat body : Int) else (digitsToNat body : Int))
    else none

/-- `parse_residual` (src/xenakis.py:48-69): clean, strip an optional leading
`'!'` into the negation flag, then either `modulus@shift` (the unpacking
raises unless the `'@'`-split has exactly two integer parts) or a bare
modulus with shift `0`; the empty string raises at `res[0]`. -/
def parse_residual (cs0 : List Char) : Option Residual :=
  match clean_sieve_str cs0 with
  | [] => none
  | c :: rest =>
    let neg : Bool := c = '!'
    let body : List Char := if c = '!' then rest else c :: rest
    if containsChar '@' body then
      match splitOnChar '@' body with
      | [a, b] => do
        let m ← pyInt a
        let sh ← pyInt b
        pure (m, sh, neg)
      | _ => none
    else do
      let m ← pyInt body
      pure (m, (0 : Int), neg)

/-- `Option`-valued map over a list, written out by recursion so proofs can
follow it; it models a Python loop over the list that may raise at any
element (later elements are then not visited). -/
def mapMO (f : α → Option β) : List α → Option (List β)
  | [] => some []
  | a :: as => do
    let b ← f a
    let bs ← mapMO f as
    pure (b :: bs)

/-- `Option`-valued left fold, modelling a Python loop with an accumulator
that may raise at any step. -/
def foldlMO (f : α → β → Option α) : α → List β → Option α
  | a, [] => some a
  | a, b :: bs => (f a b).bind fun a2 => foldlMO f a2 bs

/-- The element values of the list returned by `parse_sieve_str`: Python mixes
residual tuples and (arbitrarily nested) lists in one result list. -/
inductive PVal where
  | tup : Residual → PVal
  | lst : List PVal → PVal

/-- `parse_sieve_str` (src/xenakis.py:72-97), with explicit recursion fuel.
On a `'|'` each part's recursive parse is appended as one element
(`groups += [parse_sieve_str(group)]`); on a `'&'` each part's residual tuple
is appended (`groups += [parse_residual(residual)]`) and the flat tuple list
itself is returned; otherwise the single residual is wrapped once
(`groups.append([parse_residual(res)])`). Each split part is strictly shorter
than the input, so fuel `length + 1` always suffices. -/
def parse_sieve_aux : Nat → List Char → Option (List PVal)
  | 0, _ => none
  | fuel + 1, cs0 =>
    let res := clean_sieve_str cs0
    if containsChar '|' res then
      mapMO (fun part => (parse_sieve_aux fuel part).map PVal.lst)
        (splitOnChar '|' res)
    else if containsChar '&' res then
      mapMO (fun part => (parse_residual part).map PVal.tup)
        (splitOnChar '&' res)
    else do
      let r ← parse_residual res
      pure [PVal.lst [PVal.tup r]]

/-- `parse_sieve_str` on a character list. -/
def parse_sieve_chars (cs : List Char) : Option (List PVal) :=
  parse_sieve_aux (cs.length + 1) cs

/-- `parse_sieve_str` on a string. -/
def parse_sieve_str (s : String) : Option (List PVal) :=
  parse_sieve_chars s.toList

/-- `in_residual` (src/xenakis.py:100-115): moduli `0` and `1` are the
universal residual; otherwise test `(v - shift) % mod == 0` (Python's floored
`%`) and invert under the negation flag. -/
def in_residual (v : Int) (res : Residual) : Bool :=
  let (m, s, n) := res
  if m = 1 || m = 0 then !n
  else
    let truth : Bool := (v - s).fmod m = 0
    if n then !truth else truth

/-- `for_iter` (src/xenakis.py:118-127): filter an integer list by one
residual, preserving order. -/
def for_iter (res : Residual) (z : List Int) : List Int :=
  z.filter fun n => in_residual n res

/-- `norm_residual` (src/xenakis.py:130-139): `(m, s % m, n)`; Python's `%`
raises `ZeroDivisionError` when the modulus is `0` (there is no guard). -/
def norm_residual (res : Residual) : Option Residual :=
  if res.1 = 0 then none else some (res.1, res.2.1.fmod res.1, res.2.2)

/-- The chained comparison in the loop guard of `simplify_group`
(src/xenakis.py:163-170): `in_residual(s, r) == in_residual(s, group[0]) ==
in_residual(s, group[1])` with `r = (m, s, False)`, which in Python means the
conjunction of the two adjacent equalities. -/
def combineTest (g0 g1 : Residual) (m s : Int) : Bool :=
  (in_residual s (m, s, false) = in_residual s g0) &&
    (in_residual s g0 = in_residual s g1)

/-- The `while` loop of the two-residual case of `simplify_group`
(src/xenakis.py:161-174). The state is `(s, seek)`; the loop runs while the
test fails and `seek <= m`, so the fuel is the number of iterations still
allowed, `(m + 1).toNat - seek`; fuel `0` is the `seek > m` exit. Both exits
leave `(s, seek)` as they are, which is what is returned. -/
def seekLoop (g0 g1 : Residual) (m : Int) : Nat → Int → Nat → Int × Nat
  | 0, s, seek => (s, seek)
  | fuel + 1, s, seek =>
    if combineTest g0 g1 m s then (s, seek)
    else seekLoop g0 g1 m fuel (s + 1) (seek + 1)

/-- The two-residual case of `simplify_group` (src/xenakis.py:155-179):
`m` is the product of the moduli, the search starts at the smaller shift,
and the function raises (`none`) exactly when the loop ends with
`seek == m`. -/
def combine2 (g0 g1 : Residual) : Option Residual :=
  let m := g0.1 * g1.1
  let s0 := min g0.2.1 g1.2.1
  let r := seekLoop g0 g1 m (m + 1).toNat s0 0
  if (r.2 : Int) = m then none else some (m, r.1, false)

/-- The `while len(group) >= 2` loop of `simplify_group`
(src/xenakis.py:181-187): each iteration replaces the first two residuals by
their combination (`simplify_group(group[:2])` hits the two-residual case),
i.e. a left fold of `combine2` over the group. -/
def combineAll : Residual → List Residual → Option Residual
  | acc, [] => some acc
  | acc, r :: rest => (combine2 acc r).bind fun c => combineAll c rest

/-- `simplify_group` (src/xenakis.py:142-187): groups of length `0` or `1` are
returned unchanged, longer groups are folded down to a single residual with
`combine2`, raising (`none`) as soon as one combination fails. -/
def simplify_group : List Residual → Option (List Residual)
  | [] => some []
  | [r] => some [r]
  | r0 :: r1 :: rest => (combineAll r0 (r1 :: rest)).map fun r => [r]

/-- `norm_residual` applied to one element of a "group" by `Sieve.__init__`:
when the element is itself a list (a mis-nested parse), `res[1]` raises
`IndexError` on a short list and otherwise the `%` on two non-integers raises
`TypeError` (`none` either way). -/
def normElem : PVal → Option Residual
  | .tup r => norm_residual r
  | .lst _ => none

/-- One iteration of the outer normalization loop of `Sieve.__init__`
(src/xenakis.py:238-240): when the "group" is a bare residual tuple, iterating
it yields its integer components and `norm_residual` raises `TypeError` on the
first (`2[0]` is not subscriptable). -/
def normGroup : PVal → Option (List Residual)
  | .tup _ => none
  | .lst xs => mapMO normElem xs

/-- The in-place normalization loop of `Sieve.__init__`
(src/xenakis.py:238-240) over the parse result. -/
def normResiduals (gs : List PVal) : Option SieveV :=
  mapMO normGroup gs

/-- `Sieve(text)` (src/xenakis.py:197-242, string branch): parse, then
normalize every residual in place. -/
def sieveFromChars (cs : List Char) : Option SieveV := do
  let p ← parse_sieve_chars cs
  normResiduals p

/-- `Sieve(text)` on a string. -/
def sieveFromString (s : String) : Option SieveV :=
  sieveFromChars s.toList

/-- `Sieve(m, s, n)` (int branch): `_residuals = [[(m, s or 0, n or False)]]`,
then normalization (which raises on modulus `0`). -/
def sieveFromTriple (m s : Int) (n : Bool) : Option SieveV :=
  (norm_residual (m, s, n)).map fun r => [[r]]

/-- `Sieve(other)` (copy branch): `_residuals = m._residuals[:]` copies only
the outer list — the group lists stay shared — and the constructor then
renormalizes every residual of those shared groups in place. -/
def sieveCopy (v : SieveV) : Option SieveV :=
  mapMO (mapMO norm_residual) v

/-- The three structural complexities of `Sieve.stype`. -/
inductive SType where
  | simple | compound | complex
deriving DecidableEq

/-- `Sieve.stype` (src/xenakis.py:274-289): more than one group is `complex`,
exactly one group of more than one residual is `compound`, anything else is
`simple`. -/
def stypeOf (v : SieveV) : SType :=
  if v.length > 1 then .complex
  else if v.length == 1 && (v.headD []).length > 1 then .compound
  else .simple

/-- The operand forms accepted by `__or__`/`__and__`: a string, a
`(modulus, shift, neg)` tuple, or a `Sieve`; any other type raises before the
paths modelled here. -/
inductive Operand where
  | str : String → Operand
  | triple : Int → Int → Bool → Operand
  | sieve : SieveV → Operand

/-- The operand conversions at the top of `__or__`/`__and__`
(src/xenakis.py:335-339, 366-370). -/
def operandToSieve : Operand → Option SieveV
  | .str s => sieveFromString s
  | .triple m s n => sieveFromTriple m s n
  | .sieve v => some v

/-- The `push` computation shared by `__or__` and `__and__`
(src/xenakis.py:341-346, 372-377): the first residual for a `simple` operand,
the first group's residuals verbatim for a `compound` one; for a `complex`
operand neither branch assigns `push` and its later use raises
`UnboundLocalError` (`none`); indexing an empty group list also raises. -/
def pushOf (B : SieveV) : Option (List Residual) :=
  match stypeOf B with
  | .simple => do
    let g ← B.head?
    let r ← g.head?
    pure [r]
  | .compound => B.head?
  | .complex => none

/-- `Sieve.__or__` (src/xenakis.py:325-351): convert the operand, compute
`push`, copy the receiver (`Sieve(self)`), and append `push` as a new group
to the copy's outer list; the receiver's outer list is untouched. -/
def orSieve (A : SieveV) (o : Operand) : Option SieveV :=
  (operandToSieve o).bind fun B =>
    (pushOf B).bind fun push =>
      (sieveCopy A).bind fun Acopy =>
        some (Acopy ++ [push])

/-- `new._residuals[-1] += push`: extend the last group; `[-1]` on an empty
group list raises `IndexError`. -/
def appendLast (gs : SieveV) (push : List Residual) : Option SieveV :=
  match gs with
  | [] => none
  | _ :: _ => some (gs.dropLast ++ [gs.getLastD [] ++ push])

/-- `Sieve.__and__` (src/xenakis.py:353-383). `_cur_group` is always `'last'`,
so the extension goes to the last group. `Sieve(self)` copies only the outer
list, and `+=` on a list extends it in place, so the shared last group of the
receiver `A` is extended too: the pair returned is (the new sieve's groups,
`A`'s groups after the call), and the in-place renormalization done by
`Sieve(self)` also acts on `A`'s shared groups. -/
def andSieve (A : SieveV) (o : Operand) : Option (SieveV × SieveV) :=
  (operandToSieve o).bind fun B =>
    (pushOf B).bind fun push =>
      (sieveCopy A).bind fun Acopy =>
        (appendLast Acopy push).bind fun gs =>
          some (gs, gs)

/-- Decimal digit characters of a natural number, most significant first; the
fuel bounds the number of division steps (`n + 1` always suffices). -/
def natDigitsAux : Nat → Nat → List Char
  | 0, _ => []
  | fuel + 1, n =>
    if n < 10 then [Char.ofNat ('0'.toNat + n)]
    else natDigitsAux fuel (n / 10) ++ [Char.ofNat ('0'.toNat + n % 10)]

/-- Python's decimal rendering of a nonnegative int. -/
def natDigits (n : Nat) : List Char := natDigitsAux (n + 1) n

/-- Python's f-string rendering of an int. -/
def intToChars (n : Int) : List Char :=
  if n < 0 then '-' :: natDigits (-n).toNat else natDigits n.toNat

/-- Python's `sep.join`. -/
def joinSep (sep : List Char) : List (List Char) → List Char
  | [] => []
  | [x] => x
  | x :: y :: rest => x ++ sep ++ joinSep sep (y :: rest)

/-- One residual of `Sieve.__str__`: `f'{"!" if n else ""}{m}@{s}'`. -/
def resChars (r : Residual) : List Char :=
  (if r.2.2 then ['!'] else []) ++ intToChars r.1 ++ '@' :: intToChars r.2.1

/-- `Sieve.__str__` (src/xenakis.py:306-317): residuals joined by `' & '`
inside a group, groups joined by `' | '`. -/
def sieveChars (v : SieveV) : List Char :=
  joinSep [' ', '|', ' '] (v.map fun g => joinSep [' ', '&', ' '] (g.map resChars))

/-- `Sieve.simplified` (src/xenakis.py:291-304): take `simplify_group(group)[0]`
for every group, rebuild each as `Sieve(f'{x}@{y}')` — note the f-string drops
the negation flag — and fold the resulting sieves with `|`; `[0]` of an empty
simplified group and `sieves[0]` of an empty sieve raise `IndexError`. -/
def simplifiedSieve (v : SieveV) : Option SieveV := do
  let firsts ← mapMO (fun g => do
    let sg ← simplify_group g
    sg.head?) v
  let sieves ← mapMO
    (fun r => sieveFromChars (intToChars r.1 ++ '@' :: intToChars r.2.1)) firsts
  match sieves with
  | [] => none
  | s0 :: rest => foldlMO (fun acc sv => orSieve acc (.sieve sv)) s0 rest

/-- Modelled from the spec: the repository has no sieve-level membership
function under `src/` (only the per-residual `in_residual` and `for_iter`);
the spec's Evaluator is logical AND over a group's residuals. -/
def in_group (v : Int) (g : List Residual) : Bool :=
  g.all fun r => in_residual v r

/-- Modelled from the spec: logical OR over the sieve's groups. -/
def in_sieve (v : Int) (sv : SieveV) : Bool :=
  sv.any fun g => in_group v g

/-- The integer range `0, 1, ..., n - 1` used by the spec's extension tests. -/
def rangeInts (n : Nat) : List Int := (List.range n).map fun k => (k : Int)

/-! ## Helper lemmas -/

theorem fmod_zero_iff_dvd (a b : Int) : a.fmod b = 0 ↔ b ∣ a := by
  constructor
  · intro h
    refine ⟨a.fdiv b, ?_⟩
    have h2 := Int.fmod_add_fdiv a b
    rw [h, Int.zero_add] at h2
    exact h2.symm
  · rintro ⟨k, rfl⟩
    exact Int.mul_fmod_right b k

/-! ## Claims -/

/-- Claim C1: the code does not raise on the unsatisfiable group
`[(2,0,false),(2,1,false)]` (even AND odd): the loop exhausts all `m + 1`
candidates and exits with `seek = m + 1`, so the `seek == m` check fails and
the garbage residual `(4, 5, false)` is returned; conversely the raise fires
spuriously on the satisfiable group `[(0,0,false),(1,0,false)]`, whose very
first candidate passes the test with `seek = 0 = m`. -/
theorem c1_unsat_group_returns :
    simplify_group [(2, 0, false), (2, 1, false)] = some [(4, 5, false)] ∧
    simplify_group [(0, 0, false), (1, 0, false)] = none := ⟨rfl, rfl⟩

/-- Claim C2: for every integer `v` (negative included), a residual with
modulus `0` or `1` accepts `v` exactly when it is not negated; any other
residual accepts `v` exactly when `v ≡ shift (mod modulus)` — i.e. the
modulus divides `v - shift` — inverted under the negation flag. -/
theorem c2_in_residual_correct (v m s : Int) (n : Bool) :
    ((m = 0 ∨ m = 1) → in_residual v (m, s, n) = !n) ∧
    (m ≠ 0 → m ≠ 1 →
      (in_residual v (m, s, n) = true ↔ ((m ∣ v - s) ↔ n = false))) := by
  constructor
  · rintro (h | h) <;> simp [in_residual, h]
  · intro h0 h1
    cases n <;> simp [in_residual, h0, h1, fmod_zero_iff_dvd]

theorem c2_in_residual_correct_witness : in_residual 5 (3, 2, false) = true :=
  ((c2_in_residual_correct 5 3 2 false).2 (by decide) (by decide)).mpr (by decide)

/-- Claim C3: `parse_sieve_str` does not return a list of OR-groups. On
`"2@0&3@0"` (`&` but no `|`) the flat residual-tuple list itself is returned,
with no enclosing group; on `"3@0|4@0"` each part's recursive parse — itself
already a list of groups — is appended as a single element, doubly wrapping
each residual. -/
theorem c3_parse_shape :
    parse_sieve_str "2@0&3@0" =
      some [PVal.tup (2, 0, false), PVal.tup (3, 0, false)] ∧
    parse_sieve_str "3@0|4@0" =
      some [PVal.lst [PVal.lst [PVal.tup (3, 0, false)]],
            PVal.lst [PVal.lst [PVal.tup (4, 0, false)]]] := ⟨rfl, rfl⟩

/-- Claim C4: constructing a Sieve from well-formed grammar text is not total:
`Sieve("2@0")` succeeds, but `Sieve("2@0&3@0")` raises a `TypeError` during
normalization, because the parse of the `&`-text is a flat tuple list and the
constructor's loop then calls `norm_residual` on a bare integer. -/
theorem c4_construct_from_text :
    sieveFromString "2@0" = some [[(2, 0, false)]] ∧
    sieveFromString "2@0&3@0" = none := ⟨rfl, rfl⟩

/-- Claim C5: the round-trip fails on a reachable Sieve: `Sieve(2,0) | (3,1,False)`
has groups `[[(2,0,F)],[(3,1,F)]]` and renders as `"2@0 | 3@1"`, but parsing
that rendering yields a mis-nested structure (not a list of groups) and
constructing a Sieve from it raises an `IndexError`, so no sieve — let alone
an extensionally equal one — is produced. -/
theorem c5_roundtrip_fails :
    orSieve [[(2, 0, false)]] (.triple 3 1 false) =
      some [[(2, 0, false)], [(3, 1, false)]] ∧
    sieveChars [[(2, 0, false)], [(3, 1, false)]] = "2@0 | 3@1".toList ∧
    parse_sieve_str "2@0 | 3@1" =
      some [PVal.lst [PVal.lst [PVal.tup (2, 0, false)]],
            PVal.lst [PVal.lst [PVal.tup (3, 1, false)]]] ∧
    sieveFromString "2@0 | 3@1" = none := ⟨rfl, rfl, rfl, rfl⟩

/-- Claim C6: `A & B` mutates `A`. For `A = Sieve(2,0)` and `B = (3,0,False)`
the model returns (result groups, `A`'s groups after the call): `A`'s only
group has been extended in place to `[(2,0,F),(3,0,F)]` — the `+=` extends the
group list shared between `A` and the shallow copy — which differs from `A`'s
groups before the call. -/
theorem c6_and_mutates_receiver :
    andSieve [[(2, 0, false)]] (.triple 3 0 false) =
      some ([[(2, 0, false), (3, 0, false)]], [[(2, 0, false), (3, 0, false)]]) ∧
    ([[(2, 0, false), (3, 0, false)]] : SieveV) ≠ [[(2, 0, false)]] :=
  ⟨rfl, by decide⟩

/-- Claim C7 (counterexample): simplification is not extensionally faithful.
The sieve `[[(2,0,F),(4,0,F)]]` is reachable (`Sieve(2,0) & (4,0,False)`); its
`simplified` is the single residual `8@0` — the product modulus `2 * 4`, not
the lcm `4` — which rejects `4` although the original accepts it. The negated
singleton `[[(3,1,T)]]` (`Sieve("!3@1")`) loses its negation flag to the
`f'{x}@{y}'` rendering, flipping membership at `1`. -/
theorem c7_simplified_not_extensional :
    (andSieve [[(2, 0, false)]] (.triple 4 0 false) =
      some ([[(2, 0, false), (4, 0, false)]], [[(2, 0, false), (4, 0, false)]]) ∧
     simplifiedSieve [[(2, 0, false), (4, 0, false)]] = some [[(8, 0, false)]] ∧
     in_sieve 4 [[(2, 0, false), (4, 0, false)]] = true ∧
     in_sieve 4 [[(8, 0, false)]] = false) ∧
    (sieveFromString "!3@1" = some [[(3, 1, true)]] ∧
     simplifiedSieve [[(3, 1, true)]] = some [[(3, 1, false)]] ∧
     in_sieve 1 [[(3, 1, true)]] = false ∧
     in_sieve 1 [[(3, 1, false)]] = true) :=
  ⟨⟨rfl, rfl, rfl, rfl⟩, ⟨rfl, rfl, rfl, rfl⟩⟩

/-- Claim C8 (counterexample): constructing a Sieve from the triple
`(0, 5, False)` does not succeed: `norm_residual` computes `5 % 0`, which
raises `ZeroDivisionError` — there is no modulus-0 guard in normalization. -/
theorem c8_mod0_construct_raises : sieveFromTriple 0 5 false = none := rfl

/-- Claim C8 (amended): when the modulus is positive, construction replaces
the shift by `shift mod modulus`; when the modulus is `0`, normalization is
not skipped — it divides by zero — so construction raises instead of
succeeding. -/
theorem c8_norm_shift (m s : Int) (n : Bool) :
    (m = 0 → sieveFromTriple m s n = none) ∧
    (0 < m → sieveFromTriple m s n = some [[(m, s.fmod m, n)]]) := by
  constructor
  · intro h
    simp [sieveFromTriple, norm_residual, h]
  · intro h
    have h0 : m ≠ 0 := by omega
    simp [sieveFromTriple, norm_residual, h0]

theorem c8_norm_shift_witness :
    sieveFromTriple 0 5 false = none ∧
    sieveFromTriple 3 7 true = some [[(3, 1, true)]] :=
  ⟨(c8_norm_shift 0 5 false).1 rfl,
   ((c8_norm_shift 3 7 true).2 (by decide)).trans (by decide)⟩

/-- Claim C9: combining `(3,0,false)` and `(2,0,false)` yields the single
non-negated residual `(6,0,false)`, whose extension over `0..11` is exactly
`{0, 6}`. -/
theorem c9_combine_three_two :
    simplify_group [(3, 0, false), (2, 0, false)] = some [(6, 0, false)] ∧
    for_iter (6, 0, false) (rangeInts 12) = [0, 6] := ⟨rfl, rfl⟩

/-- Claim C10: for a structurally complex right-hand Sieve operand (more than
one OR-group) neither `stype` branch assigns `push`, so both `|` and `&`
raise `UnboundLocalError` and return no sieve; no groups are dropped. -/
theorem c10_complex_operand_raises (A B : SieveV) (h : stypeOf B = .complex) :
    orSieve A (.sieve B) = none ∧ andSieve A (.sieve B) = none := by
  have hp : pushOf B = none := by simp [pushOf, h]
  constructor <;> simp [orSieve, andSieve, operandToSieve, hp]

theorem c10_complex_operand_raises_witness :
    stypeOf [[(2, 0, false)], [(3, 0, false)]] = .complex ∧
    orSieve [[(5, 1, false)]] (.sieve [[(2, 0, false)], [(3, 0, false)]]) = none ∧
    andSieve [[(5, 1, false)]] (.sieve [[(2, 0, false)], [(3, 0, false)]]) = none :=
  ⟨by decide,
   (c10_complex_operand_raises [[(5, 1, false)]] [[(2, 0, false)], [(3, 0, false)]]
     (by decide)).1,
   (c10_complex_operand_raises [[(5, 1, false)]] [[(2, 0, false)], [(3, 0, false)]]
     (by decide)).2⟩

/-! ## Lemmas about the rendering used by `simplifiedSieve` (for claim C7) -/

theorem isDigit_ne {c x : Char} (h : c.isDigit = true) (hx : x.isDigit = false) :
    c ≠ x := by
  intro e
  rw [e, hx] at h
  cases h

theorem digitChar_isDigit {n : Nat} (h : n < 10) :
    (Char.ofNat ('0'.toNat + n)).isDigit = true := by
  interval_cases n <;> decide

theorem natDigitsAux_digits :
    ∀ fuel n, ∀ c ∈ natDigitsAux fuel n, c.isDigit = true := by
  intro fuel
  induction fuel with
  | zero => intro n c hc; cases hc
  | succ fuel ih =>
    intro n c hc
    rw [natDigitsAux] at hc
    by_cases h10 : n < 10
    · rw [if_pos h10] at hc
      rw [List.mem_singleton] at hc
      subst hc
      exact digitChar_isDigit h10
    · rw [if_neg h10] at hc
      rcases List.mem_append.mp hc with hc | hc
      · exact ih _ c hc
      · rw [List.mem_singleton] at hc
        subst hc
        exact digitChar_isDigit (Nat.mod_lt _ (by omega))

theorem natDigits_digits (n : Nat) : ∀ c ∈ natDigits n, c.isDigit = true :=
  natDigitsAux_digits (n + 1) n

theorem natDigits_ne_nil (n : Nat) : natDigits n ≠ [] := by
  rw [natDigits, natDigitsAux]
  split
  · simp
  · simp

theorem intToChars_chars (n : Int) :
    ∀ c ∈ intToChars n, c.isDigit = true ∨ c = '-' := by
  intro c hc
  rw [intToChars] at hc
  split at hc
  · rcases List.mem_cons.mp hc with hc | hc
    · right; exact hc
    · left; exact natDigits_digits _ c hc
  · left; exact natDigits_digits _ c hc

theorem intToChars_ne_nil (n : Int) : intToChars n ≠ [] := by
  rw [intToChars]
  split
  · simp
  · exact natDigits_ne_nil _

theorem render_char_facts {c : Char} (h : c.isDigit = true ∨ c = '-' ∨ c = '@') :
    pySpace c = false ∧ c ≠ ' ' ∧ c ≠ '\n' ∧ c ≠ '|' ∧ c ≠ '&' := by
  rcases h with h | h | h
  · have h1 : c ≠ ' ' := isDigit_ne h (by decide)
    have h2 : c ≠ '\t' := isDigit_ne h (by decide)
    have h3 : c ≠ '\n' := isDigit_ne h (by decide)
    have h4 : c ≠ '\r' := isDigit_ne h (by decide)
    have h5 : c ≠ '\x0b' := isDigit_ne h (by decide)
    have h6 : c ≠ '\x0c' := isDigit_ne h (by decide)
    exact ⟨by simp [pySpace, h1, h2, h3, h4, h5, h6], h1, h3,
      isDigit_ne h (by decide), isDigit_ne h (by decide)⟩
  · subst h; exact ⟨by decide, by decide, by decide, by decide, by decide⟩
  · subst h; exact ⟨by decide, by decide, by decide, by decide, by decide⟩

theorem render_ne_at {c : Char} (h : c.isDigit = true ∨ c = '-') :
    c ≠ '@' ∧ c ≠ '!' := by
  rcases h with h | h
  · exact ⟨isDigit_ne h (by decide), isDigit_ne h (by decide)⟩
  · subst h; exact ⟨by decide, by decide⟩

theorem dropWhile_id_of_none {p : Char → Bool} {cs : List Char}
    (h : ∀ c ∈ cs, p c = false) : cs.dropWhile p = cs := by
  cases cs with
  | nil => rfl
  | cons c rest => simp [List.dropWhile, h c (by simp)]

theorem pyStrip_id {cs : List Char} (h : ∀ c ∈ cs, pySpace c = false) :
    pyStrip cs = cs := by
  rw [pyStrip, dropWhile_id_of_none h,
    dropWhile_id_of_none (fun c hc => h c (List.mem_reverse.mp hc)),
    List.reverse_reverse]

theorem clean_id {cs : List Char}
    (h : ∀ c ∈ cs, pySpace c = false ∧ c ≠ ' ' ∧ c ≠ '\n') :
    clean_sieve_str cs = cs := by
  rw [clean_sieve_str, pyStrip_id (fun c hc => (h c hc).1)]
  apply List.filter_eq_self.mpr
  intro c hc
  simp [(h c hc).2.1, (h c hc).2.2]

theorem containsChar_eq_false {x : Char} {cs : List Char} (h : ∀ c ∈ cs, c ≠ x) :
    containsChar x cs = false := by
  simp only [containsChar, List.any_eq_false]
  intro c hc
  simpa using h c hc

theorem containsChar_append_cons (x : Char) (a b : List Char) :
    containsChar x (a ++ x :: b) = true := by
  simp [containsChar]

theorem splitOnChar_not_mem {x : Char} : ∀ {cs : List Char}, (∀ c ∈ cs, c ≠ x) →
    splitOnChar x cs = [cs]
  | [], _ => rfl
  | c :: rest, h => by
    rw [splitOnChar, if_neg (h c (by simp)), splitOnChar_not_mem (fun d hd => h d (by simp [hd]))]

theorem splitOnChar_append {x : Char} : ∀ (a b : List Char), (∀ c ∈ a, c ≠ x) →
    splitOnChar x (a ++ x :: b) = a :: splitOnChar x b
  | [], b, _ => by rw [List.nil_append, splitOnChar, if_pos rfl]
  | c :: a', b, h => by
    rw [List.cons_append, splitOnChar, if_neg (h c (by simp)),
      splitOnChar_append a' b (fun d hd => h d (by simp [hd]))]

theorem pyInt_digits {ds : List Char} (hne : ds ≠ [])
    (hd : ∀ c ∈ ds, c.isDigit = true) : ∃ k, pyInt ds = some k := by
  have hstrip : pyStrip ds = ds :=
    pyStrip_id fun c hc => (render_char_facts (Or.inl (hd c hc))).1
  obtain ⟨c, rest, rfl⟩ := List.exists_cons_of_ne_nil hne
  have hcm : c ≠ '-' := isDigit_ne (hd c (by simp)) (by decide)
  have hcp : c ≠ '+' := isDigit_ne (hd c (by simp)) (by decide)
  refine ⟨(digitsToNat (c :: rest) : Int), ?_⟩
  simp only [pyInt, hstrip, hcm, hcp]
  simp [List.all_eq_true]
  exact ⟨hd c (by simp), fun x hx => hd x (List.mem_cons_of_mem c hx)⟩

theorem pyInt_neg_digits {ds : List Char} (hne : ds ≠ [])
    (hd : ∀ c ∈ ds, c.isDigit = true) : ∃ k, pyInt ('-' :: ds) = some k := by
  have hstrip : pyStrip ('-' :: ds) = '-' :: ds := by
    apply pyStrip_id
    intro c hc
    rcases List.mem_cons.mp hc with hc | hc
    · subst hc; decide
    · exact (render_char_facts (Or.inl (hd c hc))).1
  refine ⟨-(digitsToNat ds : Int), ?_⟩
  simp only [pyInt, hstrip]
  simp [List.all_eq_true, List.isEmpty_iff, hne]
  exact hd

theorem pyInt_intToChars (n : Int) : ∃ k, pyInt (intToChars n) = some k := by
  rw [intToChars]
  split
  · exact pyInt_neg_digits (natDigits_ne_nil _) (natDigits_digits _)
  · exact pyInt_digits (natDigits_ne_nil _) (natDigits_digits _)

theorem parse_residual_render (m sh : Int) :
    ∃ k1 k2 : Int,
      parse_residual (intToChars m ++ '@' :: intToChars sh) = some (k1, k2, false) := by
  obtain ⟨k1, hk1⟩ := pyInt_intToChars m
  obtain ⟨k2, hk2⟩ := pyInt_intToChars sh
  refine ⟨k1, k2, ?_⟩
  have ha := intToChars_chars m
  have hb := intToChars_chars sh
  have hclean : clean_sieve_str (intToChars m ++ '@' :: intToChars sh) =
      intToChars m ++ '@' :: intToChars sh := by
    apply clean_id
    intro c hc
    rcases List.mem_append.mp hc with hc | hc
    · have hf := render_char_facts (Or.imp_right Or.inl (ha c hc))
      exact ⟨hf.1, hf.2.1, hf.2.2.1⟩
    · rcases List.mem_cons.mp hc with hc | hc
      · subst hc; exact ⟨by decide, by decide, by decide⟩
      · have hf := render_char_facts (Or.imp_right Or.inl (hb c hc))
        exact ⟨hf.1, hf.2.1, hf.2.2.1⟩
  have hat : ∀ c ∈ intToChars m, c ≠ '@' := fun c hc => (render_ne_at (ha c hc)).1
  have hbt : ∀ c ∈ intToChars sh, c ≠ '@' := fun c hc => (render_ne_at (hb c hc)).1
  have hsplit : splitOnChar '@' (intToChars m ++ '@' :: intToChars sh) =
      [intToChars m, intToChars sh] := by
    rw [splitOnChar_append _ _ hat, splitOnChar_not_mem hbt]
  have hcont : containsChar '@' (intToChars m ++ '@' :: intToChars sh) = true :=
    containsChar_append_cons _ _ _
  obtain ⟨c0, a', ha'⟩ := List.exists_cons_of_ne_nil (intToChars_ne_nil m)
  have hc0 : c0.isDigit = true ∨ c0 = '-' := ha c0 (by rw [ha']; simp)
  have hbang : c0 ≠ '!' := (render_ne_at hc0).2
  rw [ha'] at hsplit hcont hk1 hclean ⊢
  simp only [List.cons_append] at hsplit hcont hclean
  simp only [parse_residual, List.cons_append, hclean]
  simp only [if_neg hbang, hcont, hsplit, if_pos rfl, hk1, hk2]
  simp [hbang]

theorem parse_sieve_render (m sh : Int) :
    ∃ k1 k2 : Int,
      parse_sieve_chars (intToChars m ++ '@' :: intToChars sh) =
        some [PVal.lst [PVal.tup (k1, k2, false)]] := by
  obtain ⟨k1, k2, hp⟩ := parse_residual_render m sh
  refine ⟨k1, k2, ?_⟩
  have ha := intToChars_chars m
  have hb := intToChars_chars sh
  have hclean : clean_sieve_str (intToChars m ++ '@' :: intToChars sh) =
      intToChars m ++ '@' :: intToChars sh := by
    apply clean_id
    intro c hc
    rcases List.mem_append.mp hc with hc | hc
    · have hf := render_char_facts (Or.imp_right Or.inl (ha c hc))
      exact ⟨hf.1, hf.2.1, hf.2.2.1⟩
    · rcases List.mem_cons.mp hc with hc | hc
      · subst hc; exact ⟨by decide, by decide, by decide⟩
      · have hf := render_char_facts (Or.imp_right Or.inl (hb c hc))
        exact ⟨hf.1, hf.2.1, hf.2.2.1⟩
  have hnotbar : containsChar '|' (intToChars m ++ '@' :: intToChars sh) = false := by
    apply containsChar_eq_false
    intro c hc
    rcases List.mem_append.mp hc with hc | hc
    · exact (render_char_facts (Or.imp_right Or.inl (ha c hc))).2.2.2.1
    · rcases List.mem_cons.mp hc with hc | hc
      · subst hc; decide
      · exact (render_char_facts (Or.imp_right Or.inl (hb c hc))).2.2.2.1
  have hnotamp : containsChar '&' (intToChars m ++ '@' :: intToChars sh) = false := by
    apply containsChar_eq_false
    intro c hc
    rcases List.mem_append.mp hc with hc | hc
    · exact (render_char_facts (Or.imp_right Or.inl (ha c hc))).2.2.2.2
    · rcases List.mem_cons.mp hc with hc | hc
      · subst hc; decide
      · exact (render_char_facts (Or.imp_right Or.inl (hb c hc))).2.2.2.2
  rw [parse_sieve_chars, parse_sieve_aux]
  simp only [hclean, hnotbar, hnotamp, hp]
  rfl

theorem sieveFromChars_render {m sh : Int} {v : SieveV}
    (h : sieveFromChars (intToChars m ++ '@' :: intToChars sh) = some v) :
    ∃ r : Residual, v = [[r]] := by
  obtain ⟨k1, k2, hp⟩ := parse_sieve_render m sh
  rcases hr : norm_residual (k1, k2, false) with _ | r
  · simp [sieveFromChars, hp, normResiduals, mapMO, normGroup, normElem, hr] at h
  · simp [sieveFromChars, hp, normResiduals, mapMO, normGroup, normElem, hr] at h
    exact ⟨r, h.symm⟩

theorem mapMO_length {f : α → Option β} :
    ∀ {l : List α} {l2 : List β}, mapMO f l = some l2 → l2.length = l.length := by
  intro l
  induction l with
  | nil => intro l2 h; simp [mapMO] at h; simp [← h]
  | cons a as ih =>
    intro l2 h
    rcases hfa : f a with _ | b
    · simp [mapMO, hfa] at h
    · rcases hrest : mapMO f as with _ | bs
      · simp [mapMO, hfa, hrest] at h
      · simp [mapMO, hfa, hrest] at h
        rw [← h]
        simp [ih hrest]

theorem mapMO_mem {f : α → Option β} :
    ∀ {l : List α} {l2 : List β}, mapMO f l = some l2 →
      ∀ b ∈ l2, ∃ a ∈ l, f a = some b := by
  intro l
  induction l with
  | nil => intro l2 h; simp [mapMO] at h; subst h; simp
  | cons a as ih =>
    intro l2 h
    rcases hfa : f a with _ | b
    · simp [mapMO, hfa] at h
    · rcases hrest : mapMO f as with _ | bs
      · simp [mapMO, hfa, hrest] at h
      · simp [mapMO, hfa, hrest] at h
        intro b2 hb2
        rw [← h] at hb2
        rcases List.mem_cons.mp hb2 with hb2 | hb2
        · exact ⟨a, by simp, by rw [hfa, hb2]⟩
        · obtain ⟨a2, ha2, hfa2⟩ := ih hrest b2 hb2
          exact ⟨a2, by simp [ha2], hfa2⟩

theorem sieveCopy_group_lengths {A A2 : SieveV} (h : sieveCopy A = some A2)
    (hA : ∀ g ∈ A, g.length = 1) : ∀ g ∈ A2, g.length = 1 := by
  intro g hg
  obtain ⟨g0, hg0, hmap⟩ := mapMO_mem h g hg
  rw [mapMO_length hmap]
  exact hA g0 hg0

theorem orSieve_singleton {acc res : SieveV} (r : Residual)
    (h : orSieve acc (.sieve [[r]]) = some res)
    (hacc : ∀ g ∈ acc, g.length = 1) : ∀ g ∈ res, g.length = 1 := by
  have hst : stypeOf [[r]] = .simple := by simp [stypeOf]
  have hpush : pushOf [[r]] = some [r] := by simp [pushOf, hst]
  rcases hc : sieveCopy acc with _ | A2
  · simp [orSieve, operandToSieve, hpush, hc] at h
  · simp [orSieve, operandToSieve, hpush, hc] at h
    intro g hg
    rw [← h] at hg
    rcases List.mem_append.mp hg with hg | hg
    · exact sieveCopy_group_lengths hc hacc g hg
    · rw [List.mem_singleton] at hg
      subst hg
      rfl

theorem foldlMO_or_singleton :
    ∀ (l : List SieveV) (acc res : SieveV),
      (∀ g ∈ acc, g.length = 1) → (∀ sv ∈ l, ∃ r, sv = [[r]]) →
      foldlMO (fun a b => orSieve a (.sieve b)) acc l = some res →
      ∀ g ∈ res, g.length = 1 := by
  intro l
  induction l with
  | nil =>
    intro acc res hacc _ h
    rw [foldlMO] at h
    rw [← Option.some_inj.mp h]
    exact hacc
  | cons b bs ih =>
    intro acc res hacc hl h
    rw [foldlMO] at h
    rcases ho : orSieve acc (.sieve b) with _ | a2
    · rw [ho] at h; cases h
    · rw [ho] at h
      obtain ⟨r, rfl⟩ := hl b (by simp)
      exact ih a2 res (orSieve_singleton r ho hacc)
        (fun sv hsv => hl sv (by simp [hsv])) h

/-- Claim C7 (amended): whenever `simplified` succeeds, every OR-group of the
result contains exactly one residual (the extensional-equality half of the
claim is refuted by the counterexample above). -/
theorem c7_singleton_groups (s res : SieveV) (h : simplifiedSieve s = some res) :
    (res.all fun g => g.length == 1) = true := by
  simp only [simplifiedSieve, Option.bind_eq_bind] at h
  obtain ⟨firsts, h1, h⟩ := Option.bind_eq_some.mp h
  obtain ⟨sieves, h2, h⟩ := Option.bind_eq_some.mp h
  cases sieves with
  | nil => simp at h
  | cons s0 rest =>
    obtain ⟨r0, hr0, hf⟩ := mapMO_mem h2 s0 (by simp)
    obtain ⟨r0v, rfl⟩ := sieveFromChars_render hf
    have hall : ∀ g ∈ res, g.length = 1 := by
      apply foldlMO_or_singleton rest [[r0v]] res
      · intro g hg
        rw [List.mem_singleton] at hg
        subst hg
        rfl
      · intro sv hsv
        obtain ⟨r1, hr1, hf1⟩ := mapMO_mem h2 sv (by simp [hsv])
        exact sieveFromChars_render hf1
      · exact h
    rw [List.all_eq_true]
    intro g hg
    simpa using hall g hg

theorem c7_singleton_groups_witness :
    (([[((2 : Int), (0 : Int), false)]] : SieveV).all fun g => g.length == 1) = true :=
  c7_singleton_groups [[(2, 0, false)]] [[(2, 0, false)]] rfl
